import Mathlib

/-!
Verification of the chunking and hierarchical-summarization core of the
DocumentSummeriser repository (`src/app.py`).

Text is modelled as `List Char`. Python's `str.split()` (whitespace
tokenization), `str.strip()` and `" ".join(...)` are embedded directly;
`chunk_text` and `summarize_text` are translated from the source.

The external summarization primitive (`summarizer` in the source) is
modelled as a function `List Char → Nat → Nat → Option (List Char)`:
`some` is a successful call, `none` is a call that raises; the `try/except`
blocks of the source become `match` on the `Option`. `summarize_text_tr`
additionally records, in order, the inputs of every invocation of the
primitive, so that claims about how often the primitive is called can be
stated; `summarize_text` is its first component.
-/

set_option autoImplicit false
set_option maxRecDepth 8000

namespace DocSum

/-- Python whitespace characters (`string.whitespace`): space, tab,
newline, vertical tab, form feed, carriage return. -/
def isWS (c : Char) : Bool :=
  c = ' ' || c = '\t' || c = '\n' || c = Char.ofNat 11 || c = Char.ofNat 12 || c = '\r'

/-- Worker for `splitWords`: `acc` holds the characters of the word being
scanned, in reverse order. -/
def splitWordsAux : List Char → List Char → List (List Char)
  | [], acc => if acc.isEmpty then [] else [acc.reverse]
  | c :: cs, acc =>
    if isWS c then
      if acc.isEmpty then splitWordsAux cs [] else acc.reverse :: splitWordsAux cs []
    else splitWordsAux cs (c :: acc)

/-- Python `text.split()`: the maximal runs of non-whitespace characters,
in order. Empty runs never occur. -/
def splitWords (l : List Char) : List (List Char) :=
  splitWordsAux l []

/-- Python `text.strip()`: remove leading and trailing whitespace. -/
def strip (l : List Char) : List Char :=
  ((l.dropWhile fun c => isWS c).reverse.dropWhile fun c => isWS c).reverse

/-- Python `" ".join(ws)`: the words separated by single spaces. -/
def joinSpace : List (List Char) → List Char
  | [] => []
  | [w] => w
  | w :: w2 :: ws => w ++ ' ' :: joinSpace (w2 :: ws)

/-- Loop of `chunk_text` (src/app.py lines 91-103): greedily accumulate
words; `current_length` tracks the sum of `len(word) + 1` over the words of
`current_chunk`. -/
def chunkAux (max_length : Nat) :
    List (List Char) → List (List Char) → Nat → List (List Char)
  | [], current_chunk, _ =>
    if current_chunk.isEmpty then [] else [joinSpace current_chunk]
  | word :: words, current_chunk, current_length =>
    let word_length := word.length + 1
    if max_length < current_length + word_length then
      if current_chunk.isEmpty then
        chunkAux max_length words [word] word_length
      else
        joinSpace current_chunk :: chunkAux max_length words [word] word_length
    else
      chunkAux max_length words (current_chunk ++ [word]) (current_length + word_length)

/-- `chunk_text(text, max_length=1024)` of src/app.py lines 84-105. -/
def chunk_text (text : List Char) (max_length : Nat := 1024) : List (List Char) :=
  chunkAux max_length (splitWords text) [] 0

/-- The summarization primitive: input text, `max_length`, `min_length`;
`none` models a raised `Exception` (`SummarizationFailure`). -/
def Primitive : Type :=
  List Char → Nat → Nat → Option (List Char)

/-- Sentinel returned for inputs below the viability threshold. -/
def sentinelShort : List Char :=
  "Text is too short to summarize.".toList

/-- Sentinel returned when no per-chunk summary was produced. -/
def sentinelNone : List Char :=
  "Unable to generate summary.".toList

/-- Per-chunk loop of `summarize_text` (src/app.py lines 116-129).
Returns the list of successful summaries and the trace of inputs on which
the primitive was invoked, both in chunk order. -/
def perChunk (s : Primitive) (max_length min_length : Nat) :
    List (List Char) → List (List Char) × List (List Char)
  | [] => ([], [])
  | chunk :: rest =>
    if (strip chunk).length < 50 then perChunk s max_length min_length rest
    else
      match s chunk max_length min_length with
      | some summ =>
        let r := perChunk s max_length min_length rest
        (summ :: r.1, chunk :: r.2)
      | none =>
        let r := perChunk s max_length min_length rest
        (r.1, chunk :: r.2)

/-- Combination and collapse step of `summarize_text` (src/app.py lines
131-148), applied to the result of the per-chunk loop. -/
def combineStep (s : Primitive) (max_length min_length : Nat)
    (pr : List (List Char) × List (List Char)) : List Char × List (List Char) :=
  if pr.1 = [] then (sentinelNone, pr.2)
  else
    if 200 < (splitWords (joinSpace pr.1)).length then
      match s (joinSpace pr.1) max_length min_length with
      | some final_summary => (final_summary, pr.2 ++ [joinSpace pr.1])
      | none => (joinSpace pr.1, pr.2 ++ [joinSpace pr.1])
    else (joinSpace pr.1, pr.2)

/-- `summarize_text(text, summarizer, max_length=130, min_length=30)` of
src/app.py lines 107-148, instrumented: the second component is the list
of inputs passed to the primitive, in call order. -/
def summarize_text_tr (s : Primitive) (text : List Char)
    (max_length : Nat := 130) (min_length : Nat := 30) :
    List Char × List (List Char) :=
  if text = [] ∨ (strip text).length < 50 then (sentinelShort, [])
  else
    combineStep s max_length min_length
      (perChunk s max_length min_length (chunk_text text 1024))

/-- The string returned by `summarize_text`. -/
def summarize_text (s : Primitive) (text : List Char)
    (max_length : Nat := 130) (min_length : Nat := 30) : List Char :=
  (summarize_text_tr s text max_length min_length).1

/-- A chunk is viable when its stripped length reaches the threshold. -/
def viable (c : List Char) : Bool :=
  decide (50 ≤ (strip c).length)

/-- A word as produced by `splitWords`: non-empty, no whitespace. -/
def GoodWord (w : List Char) : Prop :=
  w ≠ [] ∧ ∀ c ∈ w, isWS c = false

/-- The cost `current_length` assigns to a list of words. -/
def listLen (l : List (List Char)) : Nat :=
  (l.map fun w => w.length + 1).sum

/-- 201 copies of the word `a`, separated by single spaces. -/
def manyA : List Char :=
  joinSpace (List.replicate 201 ['a'])

/-- A primitive that echoes its input. -/
def echoP : Primitive :=
  fun c _ _ => some c

/-- A primitive that always fails. -/
def noneP : Primitive :=
  fun _ _ _ => none

/-- A primitive that fails exactly on `manyA` and otherwise answers
`manyA`. -/
def failOnBig : Primitive :=
  fun c _ _ => if c = manyA then none else some manyA

/-- A text whose stripped length passes the viability threshold although
it holds only two one-letter words. -/
def wideText : List Char :=
  'a' :: List.replicate 100 ' ' ++ ['b']

/-! ### Lemmas about `splitWords` and `joinSpace` -/

theorem splitWordsAux_of_goodChars :
    ∀ (l acc : List Char), (∀ c ∈ l, isWS c = false) →
      splitWordsAux l acc = splitWordsAux [] (l.reverse ++ acc)
  | [], acc, _ => by simp
  | c :: cs, acc, h => by
    have hc : isWS c = false := h c (List.mem_cons_self c cs)
    have ih := splitWordsAux_of_goodChars cs (c :: acc)
      (fun x hx => h x (List.mem_cons_of_mem c hx))
    simp [splitWordsAux, hc, ih]

theorem splitWords_goodWord {w : List Char} (h : GoodWord w) : splitWords w = [w] := by
  have h1 := splitWordsAux_of_goodChars w [] h.2
  have h2 : w.reverse.isEmpty = false := by
    simp [List.isEmpty_iff, h.1]
  simp [splitWords, h1, splitWordsAux, h2]

theorem splitWordsAux_append_ws :
    ∀ (a acc : List Char) (c : Char) (b : List Char), isWS c = true →
      splitWordsAux (a ++ c :: b) acc = splitWordsAux a acc ++ splitWordsAux b []
  | [], acc, c, b, hc => by
    by_cases ha : acc.isEmpty <;> simp [splitWordsAux, hc, ha]
  | x :: a, acc, c, b, hc => by
    by_cases hx : isWS x
    · by_cases ha : acc.isEmpty <;>
        simp [splitWordsAux, hx, ha, splitWordsAux_append_ws a [] c b hc]
    · simp [splitWordsAux, hx, splitWordsAux_append_ws a (x :: acc) c b hc]

theorem splitWords_append_space (a b : List Char) :
    splitWords (a ++ ' ' :: b) = splitWords a ++ splitWords b :=
  splitWordsAux_append_ws a [] ' ' b (by decide)

theorem splitWords_joinSpace :
    ∀ l : List (List Char), splitWords (joinSpace l) = (l.map splitWords).flatten
  | [] => by simp [joinSpace, splitWords, splitWordsAux]
  | [w] => by simp [joinSpace]
  | w :: w2 :: ws => by
    simp [joinSpace, splitWords_append_space, splitWords_joinSpace (w2 :: ws)]

theorem goodWord_of_reverse_acc {acc : List Char} (ha : acc.isEmpty = false)
    (hacc : ∀ c ∈ acc, isWS c = false) : GoodWord acc.reverse := by
  refine ⟨by simpa [List.isEmpty_iff] using ha, fun c hc => hacc c ?_⟩
  simpa using hc

theorem splitWords_joinSpace_good {l : List (List Char)}
    (h : ∀ w ∈ l, GoodWord w) : splitWords (joinSpace l) = l := by
  rw [splitWords_joinSpace]
  have : l.map splitWords = l.map (fun w => [w]) :=
    List.map_congr_left fun w hw => splitWords_goodWord (h w hw)
  rw [this]
  induction l with
  | nil => simp
  | cons w ws ih => simp_all

theorem splitWordsAux_good :
    ∀ (l acc : List Char), (∀ c ∈ acc, isWS c = false) →
      ∀ w ∈ splitWordsAux l acc, GoodWord w
  | [], acc, hacc => by
    rcases h : acc.isEmpty with _ | _
    · intro w hw
      simp only [splitWordsAux, h, Bool.false_eq_true, if_false, List.mem_singleton] at hw
      subst hw
      exact goodWord_of_reverse_acc h hacc
    · simp [splitWordsAux, h]
  | c :: cs, acc, hacc => by
    by_cases hc : isWS c
    · rcases h : acc.isEmpty with _ | _
      · intro w hw
        simp only [splitWordsAux, hc, h, if_true, Bool.false_eq_true, if_false,
          List.mem_cons] at hw
        rcases hw with hw | hw
        · subst hw
          exact goodWord_of_reverse_acc h hacc
        · exact splitWordsAux_good cs [] (by simp) w hw
      · intro w hw
        simp only [splitWordsAux, hc, h, if_true] at hw
        exact splitWordsAux_good cs [] (by simp) w hw
    · intro w hw
      have hc' : isWS c = false := by simpa using hc
      simp only [splitWordsAux, hc', Bool.false_eq_true, if_false] at hw
      refine splitWordsAux_good cs (c :: acc) ?_ w hw
      intro x hx
      rcases List.mem_cons.mp hx with hx | hx
      · subst hx; exact hc'
      · exact hacc x hx

theorem splitWords_good (l : List Char) : ∀ w ∈ splitWords l, GoodWord w :=
  splitWordsAux_good l [] (by simp)

/-! ### Lemmas about `chunkAux` -/

theorem joinSpace_length :
    ∀ l : List (List Char), l ≠ [] → (joinSpace l).length + 1 = listLen l
  | [w], _ => by simp [joinSpace, listLen]
  | w :: w2 :: ws, _ => by
    have ih := joinSpace_length (w2 :: ws) (by simp)
    simp only [joinSpace, listLen, List.map_cons, List.sum_cons, List.length_append,
      List.length_cons] at ih ⊢
    omega

theorem joinSpace_ne_nil :
    ∀ l : List (List Char), l ≠ [] → (∀ w ∈ l, w ≠ []) → joinSpace l ≠ []
  | [w], _, h => by simpa [joinSpace] using h w (by simp)
  | _ :: w2 :: _, _, _ => by simp [joinSpace]

theorem chunkAux_flatten (B : Nat) :
    ∀ (ws cur : List (List Char)) (len : Nat),
      (∀ w ∈ cur, GoodWord w) → (∀ w ∈ ws, GoodWord w) →
      ((chunkAux B ws cur len).map splitWords).flatten = cur ++ ws
  | [], cur, len, hcur, _ => by
    rcases h : cur.isEmpty with _ | _
    · simp [chunkAux, h, splitWords_joinSpace_good hcur]
    · have hc : cur = [] := by simpa [List.isEmpty_iff] using h
      simp [chunkAux, h, hc]
  | w :: ws, cur, len, hcur, hws => by
    have hw : GoodWord w := hws w (by simp)
    have hws' : ∀ x ∈ ws, GoodWord x := fun x hx => hws x (by simp [hx])
    have ih1 := chunkAux_flatten B ws [w] (w.length + 1) (by simp [hw]) hws'
    by_cases hover : B < len + (w.length + 1)
    · rcases h : cur.isEmpty with _ | _
      · simp [chunkAux, hover, h, splitWords_joinSpace_good hcur, ih1]
      · have hc : cur = [] := by simpa [List.isEmpty_iff] using h
        simp [chunkAux, hover, h, hc, ih1]
    · have ih2 := chunkAux_flatten B ws (cur ++ [w]) (len + (w.length + 1))
        (List.forall_mem_append.mpr ⟨hcur, by simp [hw]⟩) hws'
      simp [chunkAux, hover, ih2]

theorem emitted_chunk_ok {B len : Nat} {cur : List (List Char)}
    (hcur : ∀ w ∈ cur, GoodWord w) (hlen : len = listLen cur)
    (hbound : 2 ≤ cur.length → len ≤ B) (hne : cur ≠ []) :
    (joinSpace cur).length ≤ B ∨ splitWords (joinSpace cur) = [joinSpace cur] := by
  match cur with
  | [w] =>
    right
    exact splitWords_goodWord (hcur w (by simp))
  | w :: w2 :: ws =>
    left
    have h2 : len ≤ B := hbound (by simp)
    have hL := joinSpace_length (w :: w2 :: ws) (by simp)
    omega

theorem chunkAux_budget (B : Nat) :
    ∀ (ws cur : List (List Char)) (len : Nat),
      (∀ w ∈ cur, GoodWord w) → (∀ w ∈ ws, GoodWord w) →
      len = listLen cur → (2 ≤ cur.length → len ≤ B) →
      ∀ c ∈ chunkAux B ws cur len, c.length ≤ B ∨ splitWords c = [c]
  | [], cur, len, hcur, _, hlen, hbound => by
    rcases h : cur.isEmpty with _ | _
    · have hne : cur ≠ [] := by simpa [List.isEmpty_iff] using h
      intro c hc
      simp only [chunkAux, h, Bool.false_eq_true, if_false, List.mem_singleton] at hc
      subst hc
      exact emitted_chunk_ok hcur hlen hbound hne
    · simp [chunkAux, h]
  | w :: ws, cur, len, hcur, hws, hlen, hbound => by
    have hw : GoodWord w := hws w (by simp)
    have hws' : ∀ x ∈ ws, GoodWord x := fun x hx => hws x (by simp [hx])
    have ih1 := chunkAux_budget B ws [w] (w.length + 1) (by simp [hw]) hws'
      (by simp [listLen]) (by simp)
    by_cases hover : B < len + (w.length + 1)
    · rcases h : cur.isEmpty with _ | _
      · have hne : cur ≠ [] := by simpa [List.isEmpty_iff] using h
        intro c hc
        simp only [chunkAux, hover, if_true, h, Bool.false_eq_true, if_false,
          List.mem_cons] at hc
        rcases hc with hc | hc
        · subst hc
          exact emitted_chunk_ok hcur hlen hbound hne
        · exact ih1 c hc
      · intro c hc
        simp only [chunkAux, hover, if_true, h] at hc
        exact ih1 c hc
    · have hfit : len + (w.length + 1) ≤ B := by omega
      have ih2 := chunkAux_budget B ws (cur ++ [w]) (len + (w.length + 1))
        (List.forall_mem_append.mpr ⟨hcur, by simp [hw]⟩) hws'
        (by simp [listLen, hlen]) (fun _ => hfit)
      intro c hc
      simp only [chunkAux, hover, if_false] at hc
      exact ih2 c hc

theorem chunkAux_shape (B : Nat) :
    ∀ (ws cur : List (List Char)) (len : Nat),
      (∀ w ∈ cur, GoodWord w) → (∀ w ∈ ws, GoodWord w) →
      ∀ c ∈ chunkAux B ws cur len,
        ∃ l, l ≠ [] ∧ (∀ w ∈ l, GoodWord w) ∧ c = joinSpace l
  | [], cur, len, hcur, _ => by
    rcases h : cur.isEmpty with _ | _
    · have hne : cur ≠ [] := by simpa [List.isEmpty_iff] using h
      intro c hc
      simp only [chunkAux, h, Bool.false_eq_true, if_false, List.mem_singleton] at hc
      exact ⟨cur, hne, hcur, hc⟩
    · simp [chunkAux, h]
  | w :: ws, cur, len, hcur, hws => by
    have hw : GoodWord w := hws w (by simp)
    have hws' : ∀ x ∈ ws, GoodWord x := fun x hx => hws x (by simp [hx])
    have ih1 := chunkAux_shape B ws [w] (w.length + 1) (by simp [hw]) hws'
    by_cases hover : B < len + (w.length + 1)
    · rcases h : cur.isEmpty with _ | _
      · have hne : cur ≠ [] := by simpa [List.isEmpty_iff] using h
        intro c hc
        simp only [chunkAux, hover, if_true, h, Bool.false_eq_true, if_false,
          List.mem_cons] at hc
        rcases hc with hc | hc
        · exact ⟨cur, hne, hcur, hc⟩
        · exact ih1 c hc
      · intro c hc
        simp only [chunkAux, hover, if_true, h] at hc
        exact ih1 c hc
    · have ih2 := chunkAux_shape B ws (cur ++ [w]) (len + (w.length + 1))
        (List.forall_mem_append.mpr ⟨hcur, by simp [hw]⟩) hws'
      intro c hc
      simp only [chunkAux, hover, if_false] at hc
      exact ih2 c hc

theorem goodWord_replicate_a (n : Nat) (hn : 0 < n) : GoodWord (List.replicate n 'a') := by
  constructor
  · intro h
    have := congrArg List.length h
    simp at this
    omega
  · intro c hc
    have hca : c = 'a' := List.eq_of_mem_replicate hc
    subst hca
    decide

theorem chunkAux_single_word (B : Nat) (w : List Char) (h : B < w.length + 1) :
    chunkAux B [w] [] 0 = [w] := by
  simp [chunkAux, h, joinSpace]

/-! ### Chunker claims -/

/-- C1: for every input text and positive budget `B`, joining the chunks
of `chunk_text text B` with single spaces yields a word sequence identical
to the whitespace-tokenized word sequence of the input: no word is
dropped, duplicated, or reordered. -/
theorem chunk_text_lossless (text : List Char) (B : Nat) (_hB : 0 < B) :
    splitWords (joinSpace (chunk_text text B)) = splitWords text := by
  rw [splitWords_joinSpace]
  simpa [chunk_text] using
    chunkAux_flatten B (splitWords text) [] 0 (by simp) (splitWords_good text)

/-- Witness for C1: a concrete text and budget. -/
theorem chunk_text_lossless_witness :
    0 < 11 ∧ splitWords (joinSpace (chunk_text "hello world wide web".toList 11))
      = splitWords "hello world wide web".toList :=
  ⟨by decide, chunk_text_lossless "hello world wide web".toList 11 (by decide)⟩

/-- C2: with positive budget `B`, every chunk of `chunk_text text B` whose
length exceeds `B` consists of exactly one word, kept whole; and
`chunk_text` on the single 2000-character word `"a"*2000` with budget 1024
returns exactly that word as the only chunk. -/
theorem chunk_text_budget (text : List Char) (B : Nat) (_hB : 0 < B) :
    (∀ c ∈ chunk_text text B, B < c.length → splitWords c = [c])
    ∧ chunk_text (List.replicate 2000 'a') 1024 = [List.replicate 2000 'a'] := by
  constructor
  · intro c hc hlen
    have h := chunkAux_budget B (splitWords text) [] 0 (by simp) (splitWords_good text)
      (by simp [listLen]) (by simp) c (by simpa [chunk_text] using hc)
    rcases h with h | h
    · omega
    · exact h
  · have hsplit : splitWords (List.replicate 2000 'a') = [List.replicate 2000 'a'] :=
      splitWords_goodWord (goodWord_replicate_a 2000 (by decide))
    show chunkAux 1024 (splitWords (List.replicate 2000 'a')) [] 0 = _
    rw [hsplit]
    exact chunkAux_single_word 1024 (List.replicate 2000 'a')
      (by rw [List.length_replicate]; omega)

/-- Witness for C2: a concrete text and budget. -/
theorem chunk_text_budget_witness :
    0 < 3 ∧ ((∀ c ∈ chunk_text "aa bb".toList 3, 3 < c.length → splitWords c = [c])
      ∧ chunk_text (List.replicate 2000 'a') 1024 = [List.replicate 2000 'a']) :=
  ⟨by decide, chunk_text_budget "aa bb".toList 3 (by decide)⟩

/-- C10: with positive budget `B`, every chunk of `chunk_text text B` is
non-empty, holds at least one word, and has no leading or trailing
whitespace with words separated by exactly one space (it equals the
single-space join of its own word sequence). -/
theorem chunk_text_chunks_wellformed (text : List Char) (B : Nat) (_hB : 0 < B) :
    ∀ c ∈ chunk_text text B,
      c ≠ [] ∧ 1 ≤ (splitWords c).length ∧ joinSpace (splitWords c) = c := by
  intro c hc
  obtain ⟨l, hl, hgood, rfl⟩ := chunkAux_shape B (splitWords text) [] 0 (by simp)
    (splitWords_good text) c (by simpa [chunk_text] using hc)
  have hs := splitWords_joinSpace_good hgood
  refine ⟨joinSpace_ne_nil l hl (fun w hw => (hgood w hw).1), ?_, by rw [hs]⟩
  rw [hs]
  exact List.length_pos.mpr hl

/-- Witness for C10: a concrete text and budget. -/
theorem chunk_text_chunks_wellformed_witness :
    0 < 11 ∧ ∀ c ∈ chunk_text "  hello   world wide  web ".toList 11,
      c ≠ [] ∧ 1 ≤ (splitWords c).length ∧ joinSpace (splitWords c) = c :=
  ⟨by decide, chunk_text_chunks_wellformed "  hello   world wide  web ".toList 11 (by decide)⟩

/-! ### Lemmas about `perChunk` and `summarize_text` -/

theorem perChunk_filter (s : Primitive) (max_length min_length : Nat) :
    ∀ chunks : List (List Char),
      (perChunk s max_length min_length chunks).2 = chunks.filter viable
      ∧ (perChunk s max_length min_length chunks).1
        = (chunks.filter viable).filterMap (fun c => s c max_length min_length)
  | [] => by simp [perChunk]
  | chunk :: rest => by
    have ih := perChunk_filter s max_length min_length rest
    by_cases h : (strip chunk).length < 50
    · have hv : viable chunk = false := by simp [viable]; omega
      simp [perChunk, h, hv, ih.1, ih.2]
    · have hv : viable chunk = true := by simp [viable]; omega
      rcases hs : s chunk max_length min_length with _ | summ <;>
        simp [perChunk, h, hs, hv, ih.1, ih.2]

/-! ### Summarizer claims -/

/-- C3: `summarize_text` is a total function into strings whatever the
primitive does, so no primitive failure reaches the caller; and on a run
that reaches the per-chunk phase (the input passes the 50-character
precondition) in which every chunk is skipped as too short or every
primitive call fails, it returns the sentinel
"Unable to generate summary.". -/
theorem summarize_text_graceful (s : Primitive) (text : List Char)
    (max_length min_length : Nat)
    (h1 : text ≠ []) (h2 : 50 ≤ (strip text).length)
    (h : ∀ c ∈ chunk_text text 1024,
      (strip c).length < 50 ∨ s c max_length min_length = none) :
    summarize_text s text max_length min_length = sentinelNone := by
  have hpre : ¬(text = [] ∨ (strip text).length < 50) := by
    push_neg
    exact ⟨h1, by omega⟩
  have hempty : (perChunk s max_length min_length (chunk_text text 1024)).1 = [] := by
    rw [(perChunk_filter s max_length min_length (chunk_text text 1024)).2]
    rw [List.filterMap_eq_nil_iff]
    intro c hc
    have hcv : viable c = true := List.of_mem_filter hc
    have hcm : c ∈ chunk_text text 1024 := List.mem_of_mem_filter hc
    rcases h c hcm with h1 | h1
    · exfalso
      simp [viable] at hcv
      omega
    · exact h1
  simp [summarize_text, summarize_text_tr, hpre, combineStep, hempty]

/-- Witness for C3: an always-failing primitive on a viable text. -/
theorem summarize_text_graceful_witness :
    List.replicate 60 'a' ≠ [] ∧ 50 ≤ (strip (List.replicate 60 'a')).length
    ∧ (∀ c ∈ chunk_text (List.replicate 60 'a') 1024,
      (strip c).length < 50 ∨ noneP c 130 30 = none)
    ∧ summarize_text noneP (List.replicate 60 'a') 130 30 = sentinelNone :=
  ⟨by decide, by decide, by decide,
    summarize_text_graceful noneP (List.replicate 60 'a') 130 30
      (by decide) (by decide) (by decide)⟩

/-- C6: on empty input, or input whose trimmed length is below 50,
`summarize_text` returns the sentinel "Text is too short to summarize."
and the primitive is never invoked (empty call trace). -/
theorem summarize_text_short_input (s : Primitive) (text : List Char)
    (max_length min_length : Nat)
    (h : text = [] ∨ (strip text).length < 50) :
    summarize_text_tr s text max_length min_length = (sentinelShort, []) := by
  simp [summarize_text_tr, h]

/-- Witness for C6: the two-character input `"hi"`. -/
theorem summarize_text_short_input_witness :
    ("hi".toList = [] ∨ (strip "hi".toList).length < 50)
    ∧ summarize_text_tr echoP "hi".toList 130 30 = (sentinelShort, []) :=
  ⟨by decide, summarize_text_short_input echoP "hi".toList 130 30 (by decide)⟩

/-- C7: the per-chunk phase invokes the primitive exactly once on each
chunk whose trimmed length reaches 50 characters, in chunk order (the call
trace is the viable sublist), skips the others without a call, and on a
failed call drops only that chunk's contribution while processing every
remaining chunk (the summaries are the filter-map of the primitive over
the viable chunks). -/
theorem perChunk_behavior (s : Primitive) (max_length min_length : Nat)
    (chunks : List (List Char)) :
    (perChunk s max_length min_length chunks).2 = chunks.filter viable
    ∧ (perChunk s max_length min_length chunks).1
      = (chunks.filter viable).filterMap (fun c => s c max_length min_length) :=
  perChunk_filter s max_length min_length chunks

/-- C4: once the per-chunk phase produced at least one summary: if the
combined summary exceeds 200 words, the primitive is invoked exactly once
more, on the combined summary itself (the call trace grows by exactly that
one entry, with no further chunking), and a successful call's output is
returned; if it is at most 200 words, the combined summary is returned
unchanged and no further call happens. -/
theorem summarize_text_collapse (s : Primitive) (text : List Char)
    (max_length min_length : Nat)
    (h1 : text ≠ []) (h2 : 50 ≤ (strip text).length)
    (h3 : (perChunk s max_length min_length (chunk_text text 1024)).1 ≠ []) :
    (200 < (splitWords (joinSpace
        (perChunk s max_length min_length (chunk_text text 1024)).1)).length →
      (summarize_text_tr s text max_length min_length).2
        = (perChunk s max_length min_length (chunk_text text 1024)).2
          ++ [joinSpace (perChunk s max_length min_length (chunk_text text 1024)).1]
      ∧ ∀ r, s (joinSpace (perChunk s max_length min_length (chunk_text text 1024)).1)
            max_length min_length = some r →
          summarize_text s text max_length min_length = r)
    ∧ ((splitWords (joinSpace
        (perChunk s max_length min_length (chunk_text text 1024)).1)).length ≤ 200 →
      summarize_text s text max_length min_length
        = joinSpace (perChunk s max_length min_length (chunk_text text 1024)).1
      ∧ (summarize_text_tr s text max_length min_length).2
        = (perChunk s max_length min_length (chunk_text text 1024)).2) := by
  have hpre : ¬(text = [] ∨ (strip text).length < 50) := by
    push_neg
    exact ⟨h1, by omega⟩
  constructor
  · intro hlong
    constructor
    · rcases hs : s (joinSpace (perChunk s max_length min_length
          (chunk_text text 1024)).1) max_length min_length with _ | r <;>
        simp [summarize_text_tr, hpre, combineStep, h3, hlong, hs]
    · intro r hr
      simp [summarize_text, summarize_text_tr, hpre, combineStep, h3, hlong, hr]
  · intro hshort
    have hnl : ¬ 200 < (splitWords (joinSpace
        (perChunk s max_length min_length (chunk_text text 1024)).1)).length := by
      omega
    exact ⟨by simp [summarize_text, summarize_text_tr, hpre, combineStep, h3, hnl],
      by simp [summarize_text_tr, hpre, combineStep, h3, hnl]⟩

/-- Witness for C4: an echoing primitive on 201 one-letter words. -/
theorem summarize_text_collapse_witness :
    manyA ≠ [] ∧ 50 ≤ (strip manyA).length
    ∧ (perChunk echoP 130 30 (chunk_text manyA 1024)).1 ≠ []
    ∧ 200 < (splitWords (joinSpace (perChunk echoP 130 30 (chunk_text manyA 1024)).1)).length
    ∧ summarize_text echoP manyA 130 30 = manyA := by
  have h := summarize_text_collapse echoP manyA 130 30 (by decide) (by decide) (by decide)
  exact ⟨by decide, by decide, by decide, by decide, (h.1 (by decide)).2 manyA (by decide)⟩

/-- C5: when the collapse call is made (at least one per-chunk summary,
combined summary over 200 words) and the primitive fails on it,
`summarize_text` returns the uncollapsed combined per-chunk summary
instead of propagating the failure. -/
theorem summarize_text_collapse_fallback (s : Primitive) (text : List Char)
    (max_length min_length : Nat)
    (h1 : text ≠ []) (h2 : 50 ≤ (strip text).length)
    (h3 : (perChunk s max_length min_length (chunk_text text 1024)).1 ≠ [])
    (h4 : 200 < (splitWords (joinSpace
        (perChunk s max_length min_length (chunk_text text 1024)).1)).length)
    (h5 : s (joinSpace (perChunk s max_length min_length (chunk_text text 1024)).1)
        max_length min_length = none) :
    summarize_text s text max_length min_length
      = joinSpace (perChunk s max_length min_length (chunk_text text 1024)).1 := by
  have hpre : ¬(text = [] ∨ (strip text).length < 50) := by
    push_neg
    exact ⟨h1, by omega⟩
  simp [summarize_text, summarize_text_tr, hpre, combineStep, h3, h4, h5]

/-- Witness for C5: the chunk call succeeds with a 201-word summary, the
collapse call on that summary fails. -/
theorem summarize_text_collapse_fallback_witness :
    List.replicate 60 'a' ≠ [] ∧ 50 ≤ (strip (List.replicate 60 'a')).length
    ∧ (perChunk failOnBig 130 30 (chunk_text (List.replicate 60 'a') 1024)).1 ≠ []
    ∧ 200 < (splitWords (joinSpace
        (perChunk failOnBig 130 30 (chunk_text (List.replicate 60 'a') 1024)).1)).length
    ∧ failOnBig (joinSpace
        (perChunk failOnBig 130 30 (chunk_text (List.replicate 60 'a') 1024)).1) 130 30 = none
    ∧ summarize_text failOnBig (List.replicate 60 'a') 130 30
      = joinSpace (perChunk failOnBig 130 30 (chunk_text (List.replicate 60 'a') 1024)).1 := by
  have h := summarize_text_collapse_fallback failOnBig (List.replicate 60 'a') 130 30
    (by decide) (by decide) (by decide) (by decide) (by decide)
  exact ⟨by decide, by decide, by decide, by decide, by decide, h⟩

/-- C8: the combined summary is the single-space join of exactly the
successfully produced per-chunk summaries, in the order of their source
chunks; in particular, when at least one summary was produced and the
combination stays within 200 words, that join is the returned string. -/
theorem summarize_text_combined_join (s : Primitive) (text : List Char)
    (max_length min_length : Nat)
    (h1 : text ≠ []) (h2 : 50 ≤ (strip text).length) :
    (perChunk s max_length min_length (chunk_text text 1024)).1
      = ((chunk_text text 1024).filter viable).filterMap
          (fun c => s c max_length min_length)
    ∧ ((perChunk s max_length min_length (chunk_text text 1024)).1 ≠ [] →
       (splitWords (joinSpace
          (perChunk s max_length min_length (chunk_text text 1024)).1)).length ≤ 200 →
       summarize_text s text max_length min_length
         = joinSpace (((chunk_text text 1024).filter viable).filterMap
             (fun c => s c max_length min_length))) := by
  have hpre : ¬(text = [] ∨ (strip text).length < 50) := by
    push_neg
    exact ⟨h1, by omega⟩
  have hpc := (perChunk_filter s max_length min_length (chunk_text text 1024)).2
  refine ⟨hpc, fun h3 hshort => ?_⟩
  have hnl : ¬ 200 < (splitWords (joinSpace
      (perChunk s max_length min_length (chunk_text text 1024)).1)).length := by
    omega
  rw [← hpc]
  simp [summarize_text, summarize_text_tr, hpre, combineStep, h3, hnl]

/-- Witness for C8: an echoing primitive on one viable chunk. -/
theorem summarize_text_combined_join_witness :
    List.replicate 60 'a' ≠ [] ∧ 50 ≤ (strip (List.replicate 60 'a')).length
    ∧ summarize_text echoP (List.replicate 60 'a') 130 30
      = joinSpace (((chunk_text (List.replicate 60 'a') 1024).filter viable).filterMap
          (fun c => echoP c 130 30)) := by
  have h := summarize_text_combined_join echoP (List.replicate 60 'a') 130 30
    (by decide) (by decide)
  exact ⟨by decide, by decide, h.2 (by decide) (by decide)⟩

/-- C9: `wideText` — two one-letter words separated by 100 spaces — passes
the 50-character viability precondition (its trimmed length is 102), yet
for every primitive `summarize_text` returns "Unable to generate summary."
without a single primitive invocation: whitespace collapsing during
chunking shrinks the only chunk to 3 characters, below the per-chunk
threshold. -/
theorem summarize_text_no_call_sentinel (s : Primitive) (max_length min_length : Nat) :
    50 ≤ (strip wideText).length
    ∧ summarize_text_tr s wideText max_length min_length = (sentinelNone, []) := by
  constructor
  · decide
  · rfl

end DocSum
